import Mathlib

set_option maxHeartbeats 1600000
set_option linter.unusedSectionVars false

/-!
Verification of the BN254 G1 affine script generators of g1.rs.

The Rust code compiles stack-machine script fragments that CHECK claimed
elliptic-curve results against prover-supplied hints.  We embed the
generators shallowly: each generator becomes a Lean function producing a
list of abstract stack operations (one base-field value per stack slot)
together with its ordered hint list, and a small interpreter gives the
semantics of a generated script on a machine with a main stack, an alt
stack and the hint queue.  In the real machine the hints sit beneath the
inputs at the bottom of the stack and are consumed bottom-up in push
order; the queue models exactly that discipline.

Field-arithmetic sub-scripts (the Fq operations of fp254impl.rs, which is
not under src) are modelled from the spec as the verified field operations
of the external Field Arithmetic Provider.
-/

namespace BitVMG1

/-- One operation of a compiled script, at the granularity of one
base-field element per stack slot.  Fq sub-scripts of the external Field
Arithmetic Provider appear as single abstract operations consuming their
own hint entries; opRollBottom models the N_LIMBS-fold
OP_DEPTH OP_1SUB OP_ROLL loop that moves the deepest field element (the
next hint in push order) to the top of the stack.  opIf and opNotIf carry
the two branches of an OP_IF .. OP_ELSE .. OP_ENDIF block. -/
inductive Scr (F : Type) where
  | opCopy (n : Nat)
  | opRoll (n : Nat)
  | opRollBottom
  | opDropFq
  | opAdd (a b : Nat)
  | opSub (a b : Nat)
  | opDouble
  | opNeg
  | opMulH (a b : Nat)
  | opSquareH
  | opPushZero
  | opPushOne
  | opPush (c : F)
  | opEqual (a b : Nat)
  | opEqualVerify (a b : Nat)
  | opIsZero (a : Nat)
  | opIsZeroKeep (a : Nat)
  | opToAlt
  | opFromAlt
  | opBoolAnd
  | opVerify
  | opIf (thn els : List (Scr F))
  | opNotIf (thn els : List (Scr F))
  | opFrBitsToAlt

/-- The state of the stack machine: main stack (head is the top), alt
stack, and the queue of hints still to be consumed, in push order. -/
structure MState (F : Type) where
  main : List F
  alt : List F
  hintQ : List F

variable {F : Type} [Field F] [DecidableEq F]

/-- Read the element at the given depth and remove it from the stack. -/
def stackTake (s : List F) (n : Nat) : Option (F × List F) :=
  match s.get? n with
  | none => none
  | some v => some (v, s.eraseIdx n)

/-- Read the two elements at depths a and b (a and b distinct) and remove
both from the stack. -/
def stackTake2 (s : List F) (a b : Nat) : Option (F × F × List F) :=
  match s.get? a, s.get? b with
  | some va, some vb => some (va, vb, (s.eraseIdx (max a b)).eraseIdx (min a b))
  | _, _ => none

/-- Semantics of one non-branching operation.  The branching operations
are handled by the interpreter itself and are unreachable here.  The Fq
operations of the external provider are modelled from the spec: verified
multiply and square compute the exact field result while consuming their
hint entry; the scalar bit-decomposition operates on the scalar-field
encoding, outside the modelled base-field fragment, and is treated as
unexecutable (no theorem below runs it). -/
def execPrim (op : Scr F) (s : MState F) : Option (MState F) :=
  match op with
  | .opCopy n =>
    match s.main.get? n with
    | some v => some ⟨v :: s.main, s.alt, s.hintQ⟩
    | none => none
  | .opRoll n =>
    match stackTake s.main n with
    | some (v, m) => some ⟨v :: m, s.alt, s.hintQ⟩
    | none => none
  | .opRollBottom =>
    match s.hintQ with
    | h :: q => some ⟨h :: s.main, s.alt, q⟩
    | [] => none
  | .opDropFq =>
    match s.main with
    | _ :: m => some ⟨m, s.alt, s.hintQ⟩
    | [] => none
  | .opAdd a b =>
    match stackTake2 s.main a b with
    | some (va, vb, m) => some ⟨(va + vb) :: m, s.alt, s.hintQ⟩
    | none => none
  | .opSub a b =>
    match stackTake2 s.main a b with
    | some (va, vb, m) => some ⟨(va - vb) :: m, s.alt, s.hintQ⟩
    | none => none
  | .opDouble =>
    match s.main with
    | v :: m => some ⟨(v + v) :: m, s.alt, s.hintQ⟩
    | [] => none
  | .opNeg =>
    match s.main with
    | v :: m => some ⟨(-v) :: m, s.alt, s.hintQ⟩
    | [] => none
  | .opMulH a b =>
    match stackTake2 s.main a b, s.hintQ with
    | some (va, vb, m), _ :: q => some ⟨(va * vb) :: m, s.alt, q⟩
    | _, _ => none
  | .opSquareH =>
    match s.main, s.hintQ with
    | v :: m, _ :: q => some ⟨(v * v) :: m, s.alt, q⟩
    | _, _ => none
  | .opPushZero => some ⟨(0 : F) :: s.main, s.alt, s.hintQ⟩
  | .opPushOne => some ⟨(1 : F) :: s.main, s.alt, s.hintQ⟩
  | .opPush c => some ⟨c :: s.main, s.alt, s.hintQ⟩
  | .opEqual a b =>
    match stackTake2 s.main a b with
    | some (va, vb, m) =>
      some ⟨(if va = vb then (1 : F) else 0) :: m, s.alt, s.hintQ⟩
    | none => none
  | .opEqualVerify a b =>
    match stackTake2 s.main a b with
    | some (va, vb, m) => if va = vb then some ⟨m, s.alt, s.hintQ⟩ else none
    | none => none
  | .opIsZero a =>
    match stackTake s.main a with
    | some (v, m) =>
      some ⟨(if v = 0 then (1 : F) else 0) :: m, s.alt, s.hintQ⟩
    | none => none
  | .opIsZeroKeep a =>
    match s.main.get? a with
    | some v => some ⟨(if v = 0 then (1 : F) else 0) :: s.main, s.alt, s.hintQ⟩
    | none => none
  | .opToAlt =>
    match s.main with
    | v :: m => some ⟨m, v :: s.alt, s.hintQ⟩
    | [] => none
  | .opFromAlt =>
    match s.alt with
    | v :: a => some ⟨v :: s.main, a, s.hintQ⟩
    | [] => none
  | .opBoolAnd =>
    match s.main with
    | v1 :: v2 :: m =>
      some ⟨(if v1 ≠ 0 ∧ v2 ≠ 0 then (1 : F) else 0) :: m, s.alt, s.hintQ⟩
    | _ => none
  | .opVerify =>
    match s.main with
    | v :: m => if v = 0 then none else some ⟨m, s.alt, s.hintQ⟩
    | [] => none
  | .opFrBitsToAlt => none
  | .opIf _ _ => none
  | .opNotIf _ _ => none

/-- The interpreter for a generated script.  OP_IF consumes the top value
and runs the first branch when it is nonzero, the second when it is zero;
OP_NOTIF swaps the roles. -/
def execList : List (Scr F) → MState F → Option (MState F)
  | [], s => some s
  | Scr.opIf thn els :: rest, s =>
    match s.main with
    | [] => none
    | v :: m =>
      if v = 0 then
        match execList els ⟨m, s.alt, s.hintQ⟩ with
        | none => none
        | some s2 => execList rest s2
      else
        match execList thn ⟨m, s.alt, s.hintQ⟩ with
        | none => none
        | some s2 => execList rest s2
  | Scr.opNotIf thn els :: rest, s =>
    match s.main with
    | [] => none
    | v :: m =>
      if v = 0 then
        match execList thn ⟨m, s.alt, s.hintQ⟩ with
        | none => none
        | some s2 => execList rest s2
      else
        match execList els ⟨m, s.alt, s.hintQ⟩ with
        | none => none
        | some s2 => execList rest s2
  | op :: rest, s =>
    match execPrim op s with
    | none => none
    | some s2 => execList rest s2

/-- Modelled from the spec: the external Field Arithmetic Provider exposes
a verified multiply with hint generation (Fq::hinted_mul of fp254impl.rs,
outside src).  The generated sub-script multiplies the stack elements at
the two given depths; its opaque hint payload is modelled as the single
product value computed at generation time. -/
def Fq.hinted_mul (aDepth : Nat) (a : F) (bDepth : Nat) (b : F) :
    List (Scr F) × List F :=
  ([Scr.opMulH aDepth bDepth], [a * b])

/-- Modelled from the spec: the verified square with hint generation
(Fq::hinted_square of fp254impl.rs, outside src). -/
def Fq.hinted_square (a : F) : List (Scr F) × List F :=
  ([Scr.opSquareH], [a * a])

/-- An ark_bn254::G1Affine value: an (x, y) coordinate pair together with
the explicit infinity flag; the identity element carries the sentinel
coordinates (0, 0) and the flag set. -/
structure G1Point (F : Type) where
  x : F
  y : F
  infinity : Bool

namespace G1Affine

/-- G1Affine::push_zero. -/
def push_zero : List (Scr F) := [Scr.opPushZero, Scr.opPushZero]

/-- G1Affine::push: pushes the x limbs then the y limbs. -/
def push (element : G1Point F) : List (Scr F) :=
  [Scr.opPush element.x, Scr.opPush element.y]

/-- G1Affine::is_zero_keep_element: tests both coordinates of the top
point against zero without consuming them. -/
def is_zero_keep_element : List (Scr F) :=
  [Scr.opIsZeroKeep 0, Scr.opToAlt, Scr.opIsZeroKeep 1, Scr.opFromAlt,
   Scr.opBoolAnd]

/-- G1Affine::drop. -/
def drop : List (Scr F) := [Scr.opDropFq, Scr.opDropFq]

/-- G1Affine::roll. -/
def roll (a : Nat) : List (Scr F) :=
  [Scr.opRoll (2 * a + 1), Scr.opRoll (2 * a + 1)]

/-- hinted_check_line_through_point: given (c3, c4, x, y) on the stack,
checks y - c3 * x + c4 = 0. -/
def hinted_check_line_through_point (x c3 : F) : List (Scr F) × List F :=
  let s1 := Fq.hinted_mul 1 x 3 c3
  (s1.1 ++ [Scr.opSub 1 0, Scr.opAdd 1 0, Scr.opPushZero, Scr.opEqual 1 0],
   s1.2)

/-- hinted_check_chord_line: checks that both T and Q lie on the claimed
line (c3, c4); the first through-point boolean is parked on the alt stack
while the second runs. -/
def hinted_check_chord_line (t q : G1Point F) (c3 : F) :
    List (Scr F) × List F :=
  let s1 := hinted_check_line_through_point q.x c3
  let s2 := hinted_check_line_through_point t.x c3
  ([Scr.opCopy 5, Scr.opCopy 5, Scr.opRoll 3, Scr.opRoll 3] ++ s1.1 ++
     [Scr.opToAlt] ++ s2.1 ++ [Scr.opFromAlt, Scr.opBoolAnd],
   s1.2 ++ s2.2)

/-- hinted_check_tangent_line: checks c3 * (2 * T.y) = 3 * T.x ^ 2 and
that (c3, c4) is the line through T; the slope boolean is parked on the
alt stack while the through-point check runs, then both are ANDed. -/
def hinted_check_tangent_line (t : G1Point F) (c3 : F) :
    List (Scr F) × List F :=
  let s1 := Fq.hinted_mul 1 (t.y + t.y) 0 c3
  let s2 := Fq.hinted_square t.x
  let s3 := hinted_check_line_through_point t.x c3
  ([Scr.opCopy 0, Scr.opDouble, Scr.opCopy 4] ++ s1.1 ++ [Scr.opCopy 2] ++
     s2.1 ++
     [Scr.opCopy 0, Scr.opDouble, Scr.opAdd 1 0, Scr.opSub 1 0,
      Scr.opIsZero 0, Scr.opToAlt] ++ s3.1 ++ [Scr.opFromAlt, Scr.opBoolAnd],
   s1.2 ++ s2.2 ++ s3.2)

/-- hinted_add: the unchecked addition formulas.  Input stack
(c3, c4, T.x, Q.x); output stack (x2, y2) with x2 = c3 ^ 2 - T.x - Q.x and
y2 = c4 - c3 * x2. -/
def hinted_add (tx qx c3 : F) : List (Scr F) × List F :=
  let var1 := c3 * c3
  let var2 := var1 - qx - tx
  let s1 := Fq.hinted_square c3
  let s2 := Fq.hinted_mul 2 c3 0 var2
  ([Scr.opAdd 1 0, Scr.opRoll 2, Scr.opCopy 0] ++ s1.1 ++
     [Scr.opSub 0 2, Scr.opCopy 0] ++ s2.1 ++ [Scr.opSub 2 0],
   s1.2 ++ s2.2)

/-- hinted_double: the unchecked doubling formulas.  Input stack
(c3, c4, T.x); output stack (x2, y2) with x2 = c3 ^ 2 - 2 * T.x and
y2 = c4 - c3 * x2. -/
def hinted_double (t : G1Point F) (c3 : F) : List (Scr F) × List F :=
  let var1 := c3 * c3
  let var2 := var1 - t.x - t.x
  let s1 := Fq.hinted_square c3
  let s2 := Fq.hinted_mul 2 c3 0 var2
  ([Scr.opDouble, Scr.opRoll 2, Scr.opCopy 0] ++ s1.1 ++
     [Scr.opSub 0 2, Scr.opCopy 0] ++ s2.1 ++ [Scr.opSub 2 0],
   s1.2 ++ s2.2)

/-- hinted_check_add: branches on the identity sentinel of the top point,
then of the other point, and in the general branch retrieves the
coefficient pair (alpha, -bias) from beneath the stack, re-validates it
with the chord-line check, and computes the sum with hinted_add.  The
hints (the coefficient pair followed by the sub-script hints) are
produced only in the general branch. -/
def hinted_check_add (t q : G1Point F) (c3 : F) : List (Scr F) × List F :=
  let ab : F × F :=
    if !t.infinity && !q.infinity then
      let alpha := (t.y - q.y) / (t.x - q.x)
      (alpha, t.y - alpha * t.x)
    else (0, 0)
  let alpha := ab.1
  let bias := ab.2
  let s1 := hinted_check_chord_line t q c3
  let s2 := hinted_add t.x q.x c3
  let script : List (Scr F) :=
    G1Affine.is_zero_keep_element ++
      [Scr.opIf G1Affine.drop
        (G1Affine.roll 1 ++ G1Affine.is_zero_keep_element ++
          [Scr.opIf G1Affine.drop
            ([Scr.opRollBottom, Scr.opRollBottom,
              Scr.opCopy 1, Scr.opCopy 1, Scr.opCopy 5, Scr.opRoll 5,
              Scr.opCopy 8, Scr.opRoll 8] ++ s1.1 ++
              [Scr.opVerify, Scr.opRoll 2, Scr.opRoll 3] ++ s2.1)])]
  let hints : List F :=
    if !t.infinity && !q.infinity then
      alpha :: (-bias) :: (s1.2 ++ s2.2)
    else []
  (script, hints)

/-- hinted_check_double: branches on the identity sentinel, and in the
general branch retrieves the coefficient pair (alpha, -bias) from beneath
the stack, re-validates it with the tangent-line check, and computes the
doubled point with hinted_double.  The hints are produced only in the
general branch. -/
def hinted_check_double (t : G1Point F) : List (Scr F) × List F :=
  let ab : F × F :=
    if t.infinity then (0, 0)
    else
      let alpha := (t.x * t.x + t.x * t.x + t.x * t.x) / (t.y + t.y)
      (alpha, t.y - alpha * t.x)
  let alpha := ab.1
  let bias := ab.2
  let s1 := hinted_check_tangent_line t alpha
  let s2 := hinted_double t alpha
  let hints : List F :=
    if !t.infinity then alpha :: (-bias) :: (s1.2 ++ s2.2) else []
  let script : List (Scr F) :=
    G1Affine.is_zero_keep_element ++
      [Scr.opNotIf
        ([Scr.opRollBottom, Scr.opRollBottom,
          Scr.opCopy 1, Scr.opCopy 1, Scr.opCopy 5, Scr.opRoll 5] ++ s1.1 ++
          [Scr.opVerify, Scr.opRoll 2] ++ s2.1)
        []]
  (script, hints)

/-- G1Affine::identity: pushes the sentinel coordinates (0, 0). -/
def identity : List (Scr F) := [Scr.opPushZero, Scr.opPushZero]

end G1Affine

/-- hinted_x_from_eval_point: on stack (pyd, px, py), verifies
pyd * py = 1 and outputs -px * pyd. -/
def hinted_x_from_eval_point (p : G1Point F) (py_inv : F) :
    List (Scr F) × List F :=
  let s1 := Fq.hinted_mul 1 p.y 0 py_inv
  let s2 := Fq.hinted_mul 1 py_inv 0 (-p.x)
  ([Scr.opCopy 2] ++ s1.1 ++
     [Scr.opPushOne, Scr.opEqualVerify 1 0, Scr.opNeg] ++ s2.1,
   s1.2 ++ s2.2)

/-- hinted_y_from_eval_point: on stack (pyd, py), verifies pyd * py = 1. -/
def hinted_y_from_eval_point (py py_inv : F) : List (Scr F) × List F :=
  let s1 := Fq.hinted_mul 1 py_inv 0 py
  (s1.1 ++ [Scr.opPushOne, Scr.opEqualVerify 1 0], s1.2)

/-- hinted_from_eval_point: composes the y and x re-encoders.  The source
unwraps p.y() (fails on the point at infinity) and its inverse (fails on
y = 0); both unwraps are modelled as the none cases. -/
def hinted_from_eval_point (p : G1Point F) :
    Option (List (Scr F) × List F) :=
  if p.infinity then none
  else if p.y = 0 then none
  else
    let py_inv := p.y⁻¹
    let s1 := hinted_y_from_eval_point p.y py_inv
    let s2 := hinted_x_from_eval_point p py_inv
    some ([Scr.opCopy 2, Scr.opCopy 1] ++ s1.1 ++
            [Scr.opCopy 2, Scr.opToAlt] ++ s2.1 ++ [Scr.opFromAlt],
          s1.2 ++ s2.2)

/-- The curve of the code: hinted_is_on_curve checks y ^ 2 = x ^ 3 + 3,
the short Weierstrass form of BN254. -/
def bn254 (F : Type) [Field F] : WeierstrassCurve.Affine F :=
  { a₁ := 0, a₂ := 0, a₃ := 0, a₄ := 0, a₆ := 3 }

/-- C1: for finite non-identity affine points T and Q with T.x distinct
from Q.x and alpha the correct chord slope, the script generated by
hinted_check_add, executed with the generated hints, re-validates the
coefficient pair via the chord-line check and leaves on the stack the
point (xr, yr) with xr = alpha ^ 2 - T.x - Q.x and
yr = -bias - alpha * xr, whose coordinates are exactly those of the
Mathlib group sum T + Q of the corresponding nonsingular curve points. -/
theorem hinted_check_add_general_correct
    (tx ty qx qy alpha : F)
    (ht : ¬(ty = 0 ∧ tx = 0)) (hq : ¬(qy = 0 ∧ qx = 0)) (hx : tx ≠ qx)
    (halpha : alpha = (ty - qy) / (tx - qx)) :
    execList (G1Affine.hinted_check_add ⟨tx, ty, false⟩ ⟨qx, qy, false⟩ alpha).1
        ⟨[qy, qx, ty, tx], [],
          (G1Affine.hinted_check_add ⟨tx, ty, false⟩ ⟨qx, qy, false⟩ alpha).2⟩ =
      some ⟨[-(ty - alpha * tx) - alpha * (alpha * alpha - tx - qx),
             alpha * alpha - tx - qx], [], []⟩ ∧
    alpha * alpha - tx - qx =
      (bn254 F).addX tx qx ((bn254 F).slope tx qx ty qy) ∧
    -(ty - alpha * tx) - alpha * (alpha * alpha - tx - qx) =
      (bn254 F).addY tx qx ty ((bn254 F).slope tx qx ty qy) ∧
    ∀ (h1 : (bn254 F).Nonsingular tx ty) (h2 : (bn254 F).Nonsingular qx qy),
      ∃ h3 : (bn254 F).Nonsingular (alpha * alpha - tx - qx)
          (-(ty - alpha * tx) - alpha * (alpha * alpha - tx - qx)),
        WeierstrassCurve.Affine.Point.some h1 +
            WeierstrassCurve.Affine.Point.some h2 =
          WeierstrassCurve.Affine.Point.some h3 := by
  subst halpha
  have hxq : tx - qx ≠ 0 := sub_ne_zero.mpr hx
  have hX : (ty - qy) / (tx - qx) * ((ty - qy) / (tx - qx)) - tx - qx =
      (bn254 F).addX tx qx ((bn254 F).slope tx qx ty qy) := by
    rw [WeierstrassCurve.Affine.slope_of_X_ne hx]
    simp [bn254, WeierstrassCurve.Affine.addX]
    ring
  have hY : -(ty - (ty - qy) / (tx - qx) * tx) -
        (ty - qy) / (tx - qx) *
          ((ty - qy) / (tx - qx) * ((ty - qy) / (tx - qx)) - tx - qx) =
      (bn254 F).addY tx qx ty ((bn254 F).slope tx qx ty qy) := by
    rw [WeierstrassCurve.Affine.slope_of_X_ne hx]
    simp [bn254, WeierstrassCurve.Affine.addY, WeierstrassCurve.Affine.negAddY,
      WeierstrassCurve.Affine.addX, WeierstrassCurve.Affine.negY]
    ring
  refine ⟨?_, hX, hY, ?_⟩
  · have h1 : (ty - qy) / (tx - qx) * tx - ty +
        (qy - qx * ((ty - qy) / (tx - qx))) = 0 := by
      field_simp
      ring
    have h2 : (ty - qy) / (tx - qx) * tx - ty +
        (ty - tx * ((ty - qy) / (tx - qx))) = 0 := by
      field_simp
      ring
    simp [execList, execPrim, G1Affine.hinted_check_add,
      G1Affine.hinted_check_chord_line,
      G1Affine.hinted_check_line_through_point,
      G1Affine.hinted_add, G1Affine.is_zero_keep_element, G1Affine.drop,
      G1Affine.roll, Fq.hinted_mul, Fq.hinted_square,
      stackTake2, stackTake, ht, hq, h1, h2]
    ring_nf
    tauto
  · intro h1 h2
    rw [hY, hX]
    exact ⟨WeierstrassCurve.Affine.nonsingular_add h1 h2
        (fun hxx => absurd hxx hx),
      WeierstrassCurve.Affine.Point.add_of_X_ne hx⟩

instance : Fact (Nat.Prime 11) := ⟨by norm_num⟩

/-- Witness for C1: T = (1, 2) and Q = (4, 1) lie on y ^ 2 = x ^ 3 + 3
over ZMod 11 and have distinct x; the correct chord slope is 7. -/
theorem hinted_check_add_general_correct_witness :
    execList (G1Affine.hinted_check_add ⟨1, 2, false⟩ ⟨4, 1, false⟩
          (7 : ZMod 11)).1
        ⟨[1, 4, 2, 1], [],
          (G1Affine.hinted_check_add ⟨1, 2, false⟩ ⟨4, 1, false⟩
            (7 : ZMod 11)).2⟩ =
      some ⟨[-((2 : ZMod 11) - 7 * 1) - 7 * (7 * 7 - 1 - 4),
             7 * 7 - 1 - 4], [], []⟩ ∧
    (7 : ZMod 11) * 7 - 1 - 4 =
      (bn254 (ZMod 11)).addX 1 4 ((bn254 (ZMod 11)).slope 1 4 2 1) ∧
    -((2 : ZMod 11) - 7 * 1) - 7 * (7 * 7 - 1 - 4) =
      (bn254 (ZMod 11)).addY 1 4 2 ((bn254 (ZMod 11)).slope 1 4 2 1) ∧
    ∀ (h1 : (bn254 (ZMod 11)).Nonsingular 1 2)
      (h2 : (bn254 (ZMod 11)).Nonsingular 4 1),
      ∃ h3 : (bn254 (ZMod 11)).Nonsingular ((7 : ZMod 11) * 7 - 1 - 4)
          (-((2 : ZMod 11) - 7 * 1) - 7 * (7 * 7 - 1 - 4)),
        WeierstrassCurve.Affine.Point.some h1 +
            WeierstrassCurve.Affine.Point.some h2 =
          WeierstrassCurve.Affine.Point.some h3 :=
  hinted_check_add_general_correct 1 2 4 1 7 (by decide) (by decide)
    (by decide) (by rw [eq_div_iff (by decide)]; decide)

/-- C2: for the identity (pushed as the sentinel (0, 0)) the script of
hinted_check_double leaves the stack unchanged, and for a finite point T
with T.y nonzero (over a field of characteristic different from 2) it
derives the tangent slope alpha = 3 T.x ^ 2 / (2 T.y), validates the
coefficient pair with the tangent-line check, and leaves the point
(alpha ^ 2 - 2 T.x, -bias - alpha * (alpha ^ 2 - 2 T.x)), whose
coordinates are exactly those of the Mathlib group sum T + T. -/
theorem hinted_check_double_correct
    (h2F : (2 : F) ≠ 0) (tx ty : F) (hty : ty ≠ 0) :
    (execList (G1Affine.hinted_check_double (⟨0, 0, true⟩ : G1Point F)).1
        ⟨[0, 0], [],
          (G1Affine.hinted_check_double (⟨0, 0, true⟩ : G1Point F)).2⟩ =
      some ⟨[0, 0], [], []⟩) ∧
    (let alpha := (tx * tx + tx * tx + tx * tx) / (ty + ty)
     execList (G1Affine.hinted_check_double (⟨tx, ty, false⟩ : G1Point F)).1
        ⟨[ty, tx], [],
          (G1Affine.hinted_check_double (⟨tx, ty, false⟩ : G1Point F)).2⟩ =
      some ⟨[-(ty - alpha * tx) - alpha * (alpha * alpha - (tx + tx)),
             alpha * alpha - (tx + tx)], [], []⟩ ∧
     alpha * alpha - (tx + tx) =
       (bn254 F).addX tx tx ((bn254 F).slope tx tx ty ty) ∧
     -(ty - alpha * tx) - alpha * (alpha * alpha - (tx + tx)) =
       (bn254 F).addY tx tx ty ((bn254 F).slope tx tx ty ty) ∧
     ∀ h1 : (bn254 F).Nonsingular tx ty,
       ∃ h3 : (bn254 F).Nonsingular (alpha * alpha - (tx + tx))
           (-(ty - alpha * tx) - alpha * (alpha * alpha - (tx + tx))),
         WeierstrassCurve.Affine.Point.some h1 +
             WeierstrassCurve.Affine.Point.some h1 =
           WeierstrassCurve.Affine.Point.some h3) := by
  have hty2 : ty + ty ≠ 0 := by
    intro hcon
    exact hty (by
      have : (2 : F) * ty = 0 := by rw [two_mul]; exact hcon
      rcases mul_eq_zero.mp this with h | h
      · exact absurd h h2F
      · exact h)
  have hYne : ty ≠ (bn254 F).negY tx ty := by
    simp only [bn254, WeierstrassCurve.Affine.negY]
    intro hcon
    apply hty2
    have : ty + ty = ty - (-ty - 0 * tx - 0) := by ring
    rw [this, ← hcon]
    ring
  constructor
  · simp [execList, execPrim, G1Affine.hinted_check_double,
      G1Affine.is_zero_keep_element, stackTake2, stackTake]
  · intro alpha
    have hX : alpha * alpha - (tx + tx) =
        (bn254 F).addX tx tx ((bn254 F).slope tx tx ty ty) := by
      rw [WeierstrassCurve.Affine.slope_of_Y_ne rfl hYne]
      simp only [bn254, WeierstrassCurve.Affine.addX,
        WeierstrassCurve.Affine.negY, alpha]
      field_simp
      ring
    have hY : -(ty - alpha * tx) - alpha * (alpha * alpha - (tx + tx)) =
        (bn254 F).addY tx tx ty ((bn254 F).slope tx tx ty ty) := by
      rw [WeierstrassCurve.Affine.slope_of_Y_ne rfl hYne]
      simp only [bn254, WeierstrassCurve.Affine.addY,
        WeierstrassCurve.Affine.negAddY, WeierstrassCurve.Affine.addX,
        WeierstrassCurve.Affine.negY, alpha]
      field_simp
      ring
    refine ⟨?_, hX, hY, ?_⟩
    · have h1 : (ty + ty) * ((tx * tx + tx * tx + tx * tx) / (ty + ty)) -
          (tx * tx + (tx * tx + tx * tx)) = 0 := by
        field_simp
        ring
      have h2 : (tx * tx + tx * tx + tx * tx) / (ty + ty) * tx - ty +
          (ty - tx * ((tx * tx + tx * tx + tx * tx) / (ty + ty))) = 0 := by
        ring
      simp [execList, execPrim, G1Affine.hinted_check_double,
        G1Affine.hinted_check_tangent_line,
        G1Affine.hinted_check_line_through_point, G1Affine.hinted_double,
        G1Affine.is_zero_keep_element, Fq.hinted_mul, Fq.hinted_square,
        stackTake2, stackTake, hty, h1, h2, alpha]
    · intro h1
      rw [hY, hX]
      exact ⟨WeierstrassCurve.Affine.nonsingular_add h1 h1
          (fun _ => hYne),
        WeierstrassCurve.Affine.Point.add_self_of_Y_ne hYne⟩

/-- Witness for C2 at T = (1, 2) on y ^ 2 = x ^ 3 + 3 over ZMod 11. -/
theorem hinted_check_double_correct_witness :
    (execList (G1Affine.hinted_check_double (⟨0, 0, true⟩ : G1Point (ZMod 11))).1
        ⟨[0, 0], [],
          (G1Affine.hinted_check_double (⟨0, 0, true⟩ : G1Point (ZMod 11))).2⟩ =
      some ⟨[0, 0], [], []⟩) ∧
    (let alpha := ((1 : ZMod 11) * 1 + 1 * 1 + 1 * 1) / (2 + 2)
     execList (G1Affine.hinted_check_double (⟨1, 2, false⟩ : G1Point (ZMod 11))).1
        ⟨[2, 1], [],
          (G1Affine.hinted_check_double (⟨1, 2, false⟩ : G1Point (ZMod 11))).2⟩ =
      some ⟨[-((2 : ZMod 11) - alpha * 1) - alpha * (alpha * alpha - (1 + 1)),
             alpha * alpha - (1 + 1)], [], []⟩ ∧
     alpha * alpha - (1 + 1) =
       (bn254 (ZMod 11)).addX 1 1 ((bn254 (ZMod 11)).slope 1 1 2 2) ∧
     -((2 : ZMod 11) - alpha * 1) - alpha * (alpha * alpha - (1 + 1)) =
       (bn254 (ZMod 11)).addY 1 1 2 ((bn254 (ZMod 11)).slope 1 1 2 2) ∧
     ∀ h1 : (bn254 (ZMod 11)).Nonsingular 1 2,
       ∃ h3 : (bn254 (ZMod 11)).Nonsingular (alpha * alpha - (1 + 1))
           (-((2 : ZMod 11) - alpha * 1) - alpha * (alpha * alpha - (1 + 1))),
         WeierstrassCurve.Affine.Point.some h1 +
             WeierstrassCurve.Affine.Point.some h1 =
           WeierstrassCurve.Affine.Point.some h3) :=
  hinted_check_double_correct (by decide) 1 2 (by decide)

omit [DecidableEq F] in
/-- A zero-one indicator is nonzero exactly when its condition holds. -/
@[simp] lemma indicator_ne_zero (p : Prop) [Decidable p] :
    ¬(if p then (1 : F) else 0) = 0 ↔ p := by
  by_cases h : p <;> simp [h]

/-- C3: the script of hinted_check_add with the identity as first argument
leaves Q unchanged on the stack, and with the identity as second argument
leaves T unchanged, for every value of the unused coefficient argument. -/
theorem hinted_check_add_identity_branches (tx ty qx qy c3 : F) :
    execList (G1Affine.hinted_check_add ⟨0, 0, true⟩ ⟨qx, qy, false⟩ c3).1
        ⟨[qy, qx, 0, 0], [],
          (G1Affine.hinted_check_add ⟨0, 0, true⟩ ⟨qx, qy, false⟩ c3).2⟩ =
      some ⟨[qy, qx], [], []⟩ ∧
    execList (G1Affine.hinted_check_add ⟨tx, ty, false⟩ ⟨0, 0, true⟩ c3).1
        ⟨[0, 0, ty, tx], [],
          (G1Affine.hinted_check_add ⟨tx, ty, false⟩ ⟨0, 0, true⟩ c3).2⟩ =
      some ⟨[ty, tx], [], []⟩ := by
  constructor
  · by_cases h : qy = 0 ∧ qx = 0
    · obtain ⟨h1, h2⟩ := h
      subst h1
      subst h2
      simp [execList, execPrim, G1Affine.hinted_check_add,
        G1Affine.is_zero_keep_element, G1Affine.drop, G1Affine.roll,
        stackTake2, stackTake]
    · simp [execList, execPrim, G1Affine.hinted_check_add,
        G1Affine.is_zero_keep_element, G1Affine.drop, G1Affine.roll,
        stackTake2, stackTake, h]
  · simp [execList, execPrim, G1Affine.hinted_check_add,
      G1Affine.is_zero_keep_element, G1Affine.drop, G1Affine.roll,
      stackTake2, stackTake]

/-- C7: the tangent-line check script is the slope-identity block, whose
boolean is parked on the alt stack, followed by the through-point check
and a boolean AND; executed with its hints it never aborts and leaves the
boolean that is true exactly when both the slope identity
alpha * (2 y) = 3 x ^ 2 and the through-point condition hold. -/
theorem hinted_check_tangent_line_spec (t : G1Point F) (c3 alpha c4 x y : F) :
    (G1Affine.hinted_check_tangent_line t c3).1 =
      [Scr.opCopy 0, Scr.opDouble, Scr.opCopy 4, Scr.opMulH 1 0,
       Scr.opCopy 2, Scr.opSquareH, Scr.opCopy 0, Scr.opDouble,
       Scr.opAdd 1 0, Scr.opSub 1 0, Scr.opIsZero 0, Scr.opToAlt] ++
      (G1Affine.hinted_check_line_through_point t.x c3).1 ++
      [Scr.opFromAlt, Scr.opBoolAnd] ∧
    execList (G1Affine.hinted_check_tangent_line t c3).1
        ⟨[y, x, c4, alpha], [],
          (G1Affine.hinted_check_tangent_line t c3).2⟩ =
      some ⟨[if alpha * (2 * y) = 3 * (x * x) ∧ y - alpha * x + c4 = 0
             then (1 : F) else 0], [], []⟩ := by
  constructor
  · rfl
  · have hiff : ((y + y) * alpha - (x * x + (x * x + x * x)) = 0 ∧
        c4 + (y - x * alpha) = 0) ↔
        (alpha * (2 * y) = 3 * (x * x) ∧ y - alpha * x + c4 = 0) := by
      constructor
      · rintro ⟨u1, u2⟩
        exact ⟨by linear_combination u1, by linear_combination u2⟩
      · rintro ⟨u1, u2⟩
        exact ⟨by linear_combination u1, by linear_combination u2⟩
    simp [execList, execPrim, G1Affine.hinted_check_tangent_line,
      G1Affine.hinted_check_line_through_point, Fq.hinted_mul,
      Fq.hinted_square, stackTake2, stackTake]
    rw [if_congr hiff rfl rfl]

/-- The number of equality-verify operations (each one here is an
equal-to-one check of the claimed inverse) contained in a script,
branches included. -/
def countEqualVerify : List (Scr F) → Nat
  | [] => 0
  | Scr.opIf thn els :: rest =>
    countEqualVerify thn + countEqualVerify els + countEqualVerify rest
  | Scr.opNotIf thn els :: rest =>
    countEqualVerify thn + countEqualVerify els + countEqualVerify rest
  | Scr.opEqualVerify _ _ :: rest => 1 + countEqualVerify rest
  | _ :: rest => countEqualVerify rest

/-- Counterexample for C6: in the composed script of
hinted_from_eval_point at the concrete point (2, 3) the inverse claim is
validated twice, not exactly once: both the y sub-script and the x
sub-script contain an equal-to-one check. -/
theorem from_eval_point_validates_twice :
    ∃ s h, hinted_from_eval_point (⟨2, 3, false⟩ : G1Point (ZMod 11)) =
        some (s, h) ∧ countEqualVerify s = 2 ∧ ¬countEqualVerify s = 1 := by
  have hfe : hinted_from_eval_point (⟨2, 3, false⟩ : G1Point (ZMod 11)) =
      some
        ([Scr.opCopy 2, Scr.opCopy 1] ++
            (hinted_y_from_eval_point (3 : ZMod 11) (3 : ZMod 11)⁻¹).1 ++
            [Scr.opCopy 2, Scr.opToAlt] ++
            (hinted_x_from_eval_point ⟨2, 3, false⟩ (3 : ZMod 11)⁻¹).1 ++
            [Scr.opFromAlt],
         (hinted_y_from_eval_point (3 : ZMod 11) (3 : ZMod 11)⁻¹).2 ++
           (hinted_x_from_eval_point ⟨2, 3, false⟩ (3 : ZMod 11)⁻¹).2) := by
    rw [hinted_from_eval_point]
    simp [show (3 : ZMod 11) ≠ 0 from by decide]
  refine ⟨_, _, hfe, ?_, ?_⟩
  · simp [hinted_y_from_eval_point, hinted_x_from_eval_point,
      Fq.hinted_mul, countEqualVerify]
  · simp [hinted_y_from_eval_point, hinted_x_from_eval_point,
      Fq.hinted_mul, countEqualVerify]

/-- C6 as amended: for P with nonzero y the composed script of
hinted_from_eval_point, executed with its hints and the correct inverse
witness, outputs the pair (-P.x / P.y, 1 / P.y); the inverse claim
y_inv * y = 1 is validated twice (once by each sub-script) and the
witness value from the stack is reused for both outputs; a wrong inverse
witness fails the first equal-to-one check. -/
theorem hinted_from_eval_point_correct_amended
    (p : G1Point F) (hinf : p.infinity = false) (hy : p.y ≠ 0) :
    ∃ s h, hinted_from_eval_point p = some (s, h) ∧
      countEqualVerify s = 2 ∧
      execList s ⟨[p.y, p.x, p.y⁻¹], [], h⟩ =
        some ⟨[p.y⁻¹, -p.x * p.y⁻¹], [], []⟩ ∧
      ∀ w : F, w * p.y ≠ 1 → execList s ⟨[p.y, p.x, w], [], h⟩ = none := by
  have hfe : hinted_from_eval_point p =
      some
        ([Scr.opCopy 2, Scr.opCopy 1] ++
            (hinted_y_from_eval_point p.y p.y⁻¹).1 ++
            [Scr.opCopy 2, Scr.opToAlt] ++
            (hinted_x_from_eval_point p p.y⁻¹).1 ++ [Scr.opFromAlt],
         (hinted_y_from_eval_point p.y p.y⁻¹).2 ++
           (hinted_x_from_eval_point p p.y⁻¹).2) := by
    rw [hinted_from_eval_point]
    simp [hinf, hy]
  refine ⟨_, _, hfe, ?_, ?_, ?_⟩
  · simp [hinted_y_from_eval_point, hinted_x_from_eval_point,
      Fq.hinted_mul, countEqualVerify]
  · have h1 : p.y⁻¹ * p.y = 1 := inv_mul_cancel₀ hy
    have h2 : p.y * p.y⁻¹ = 1 := mul_inv_cancel₀ hy
    simp [hinted_from_eval_point, hinf, hy, hinted_y_from_eval_point,
      hinted_x_from_eval_point, Fq.hinted_mul, execList, execPrim,
      stackTake2, stackTake, h1, h2]
    ring
  · intro w hw
    simp [hinted_from_eval_point, hinf, hy, hinted_y_from_eval_point,
      hinted_x_from_eval_point, Fq.hinted_mul, execList, execPrim,
      stackTake2, stackTake, hw]

/-- Witness for the amended C6 at P = (2, 3) over ZMod 11. -/
theorem hinted_from_eval_point_correct_amended_witness :
    ∃ s h, hinted_from_eval_point (⟨2, 3, false⟩ : G1Point (ZMod 11)) =
        some (s, h) ∧
      countEqualVerify s = 2 ∧
      execList s ⟨[3, 2, (3 : ZMod 11)⁻¹], [], h⟩ =
        some ⟨[(3 : ZMod 11)⁻¹, -(2 : ZMod 11) * (3 : ZMod 11)⁻¹], [], []⟩ ∧
      ∀ w : ZMod 11, w * 3 ≠ 1 → execList s ⟨[3, 2, w], [], h⟩ = none :=
  hinted_from_eval_point_correct_amended ⟨2, 3, false⟩ rfl (by decide)

/-- C10: hinted_check_add returns an empty hint list whenever T or Q is
the identity, hinted_check_double returns an empty hint list whenever T
is the identity, and conversely a nonempty hint list is produced only
when the general (both-finite) branch will execute. -/
theorem identity_branch_hints_empty (t q : G1Point F) (c3 : F) :
    ((t.infinity = true ∨ q.infinity = true) →
      (G1Affine.hinted_check_add t q c3).2 = []) ∧
    (t.infinity = true → (G1Affine.hinted_check_double t).2 = []) ∧
    ((G1Affine.hinted_check_add t q c3).2 ≠ [] →
      t.infinity = false ∧ q.infinity = false) ∧
    ((G1Affine.hinted_check_double t).2 ≠ [] → t.infinity = false) := by
  cases ht : t.infinity <;> cases hq : q.infinity <;>
    simp [G1Affine.hinted_check_add, G1Affine.hinted_check_double, ht, hq]

/-- Witness for C10 at the identity as T. -/
theorem identity_branch_hints_empty_witness :
    (G1Affine.hinted_check_add (⟨0, 0, true⟩ : G1Point (ZMod 11))
        ⟨1, 2, false⟩ 0).2 = [] ∧
      (G1Affine.hinted_check_double (⟨0, 0, true⟩ : G1Point (ZMod 11))).2 = [] :=
  ⟨(identity_branch_hints_empty ⟨0, 0, true⟩ ⟨1, 2, false⟩ 0).1 (Or.inl rfl),
   (identity_branch_hints_empty ⟨0, 0, true⟩ ⟨1, 2, false⟩ 0).2.1 rfl⟩

/-- Modelled from the spec: the base-field prime of the 254-bit curve
(fq.rs is outside src). -/
def fqModulus : Nat :=
  21888242871839275222246405745257275088696311157297823662689037894645226208583

/-- Modelled from the spec: Fq::N_LIMBS, the number of stack limbs of one
base-field element (fp254impl.rs is outside src). -/
def Fq.N_LIMBS : Nat := 9

/-- Modelled from the spec: the width in bits of one limb. -/
def Fq.LIMB_SIZE : Nat := 29

/-- Modelled from the spec: Fq::push_u32_le leaves the canonical
little-endian fixed-width limb expansion of the value on the stack. -/
def Fq.push_u32_le (v : Nat) : List Nat :=
  (List.range Fq.N_LIMBS).map fun i =>
    v / 2 ^ (Fq.LIMB_SIZE * i) % 2 ^ Fq.LIMB_SIZE

/-- Modelled from the spec: Fq::read_u32_le recomposes the little-endian
limb sequence. -/
def Fq.read_u32_le (w : List Nat) : Nat :=
  w.foldr (fun limb acc => acc * 2 ^ Fq.LIMB_SIZE + limb) 0

/-- G1Affine::push at the witness level: the x limbs then the y limbs;
the infinity flag of the argument is not encoded. -/
def pushPoint (e : G1Point Nat) : List Nat :=
  Fq.push_u32_le e.x ++ Fq.push_u32_le e.y

/-- G1Affine::push_zero at the witness level: the sentinel coordinates
(0, 0). -/
def pushZeroPoint : List Nat :=
  Fq.push_u32_le 0 ++ Fq.push_u32_le 0

/-- ark_bn254::G1Affine::identity: the infinity flag is set and the
coordinates are the sentinel (0, 0). -/
def arkIdentity : G1Point Nat := ⟨0, 0, true⟩

/-- read_from_stack: asserts that the witness holds exactly 2 * N_LIMBS
limbs, recomposes x and y (reduced modulo the field prime, as the
conversion into the field does) and always sets the infinity flag to
false. -/
def read_from_stack (witness : List Nat) : Option (G1Point Nat) :=
  if witness.length = Fq.N_LIMBS * 2 then
    some ⟨Fq.read_u32_le (witness.take Fq.N_LIMBS) % fqModulus,
          Fq.read_u32_le (witness.drop Fq.N_LIMBS) % fqModulus,
          false⟩
  else none

/-- Recomposition inverts the limb expansion below the field prime. -/
lemma read_push_limbs (v : Nat) (hv : v < fqModulus) :
    Fq.read_u32_le (Fq.push_u32_le v) = v := by
  have hb : v < 2 ^ 261 := lt_trans hv (by norm_num [fqModulus])
  simp only [Fq.push_u32_le, Fq.read_u32_le, Fq.N_LIMBS, Fq.LIMB_SIZE,
    List.range_succ, List.range_zero, List.map_append, List.map_cons,
    List.map_nil, List.nil_append, List.foldr_append, List.foldr_cons,
    List.foldr_nil, List.cons_append]
  omega

/-- The limb expansion has exactly N_LIMBS entries. -/
lemma push_u32_le_length (v : Nat) :
    (Fq.push_u32_le v).length = Fq.N_LIMBS := by
  simp [Fq.push_u32_le]

/-- C9: read_from_stack always constructs a point with the infinity flag
false; reading back the witness of push is the identity on finite points
below the modulus, while the identity element, pushed as the sentinel
coordinates, reads back as the finite point (0, 0) and not as the
identity variant. -/
theorem read_from_stack_round_trip (a : G1Point Nat)
    (hx : a.x < fqModulus) (hy : a.y < fqModulus)
    (hfin : a.infinity = false) :
    read_from_stack (pushPoint a) = some a ∧
    read_from_stack pushZeroPoint = some ⟨0, 0, false⟩ ∧
    read_from_stack (pushPoint arkIdentity) = some ⟨0, 0, false⟩ ∧
    (⟨0, 0, false⟩ : G1Point Nat) ≠ arkIdentity ∧
    ∀ w pt, read_from_stack w = some pt → pt.infinity = false := by
  have hzero : (0 : Nat) < fqModulus := by norm_num [fqModulus]
  have htake : ∀ u v : Nat,
      (Fq.push_u32_le u ++ Fq.push_u32_le v).take Fq.N_LIMBS =
        Fq.push_u32_le u := by
    intro u v
    rw [← push_u32_le_length u, List.take_left]
  have hdrop : ∀ u v : Nat,
      (Fq.push_u32_le u ++ Fq.push_u32_le v).drop Fq.N_LIMBS =
        Fq.push_u32_le v := by
    intro u v
    rw [← push_u32_le_length u, List.drop_left]
  have hlen : ∀ u v : Nat,
      (Fq.push_u32_le u ++ Fq.push_u32_le v).length = Fq.N_LIMBS * 2 := by
    intro u v
    simp [push_u32_le_length]
    rfl
  refine ⟨?_, ?_, ?_, ?_, ?_⟩
  · obtain ⟨ax, ay, ai⟩ := a
    simp only at hx hy hfin
    subst hfin
    simp only [read_from_stack, pushPoint, hlen, htake, hdrop, if_pos,
      read_push_limbs ax hx, read_push_limbs ay hy,
      Nat.mod_eq_of_lt hx, Nat.mod_eq_of_lt hy]
  · simp only [read_from_stack, pushZeroPoint, hlen, htake, hdrop, if_pos,
      read_push_limbs 0 hzero, Nat.mod_eq_of_lt hzero]
  · simp only [read_from_stack, pushPoint, arkIdentity, hlen, htake, hdrop,
      if_pos, read_push_limbs 0 hzero, Nat.mod_eq_of_lt hzero]
  · simp [arkIdentity]
  · intro w pt h
    by_cases hl : w.length = Fq.N_LIMBS * 2
    · rw [read_from_stack, if_pos hl] at h
      cases h
      rfl
    · rw [read_from_stack, if_neg hl] at h
      cases h

/-- Witness for C9 at the point (1, 2). -/
theorem read_from_stack_round_trip_witness :
    read_from_stack (pushPoint ⟨1, 2, false⟩) = some ⟨1, 2, false⟩ ∧
    read_from_stack pushZeroPoint = some ⟨0, 0, false⟩ ∧
    read_from_stack (pushPoint arkIdentity) = some ⟨0, 0, false⟩ ∧
    (⟨0, 0, false⟩ : G1Point Nat) ≠ arkIdentity ∧
    ∀ w pt, read_from_stack w = some pt → pt.infinity = false :=
  read_from_stack_round_trip ⟨1, 2, false⟩ (by norm_num [fqModulus])
    (by norm_num [fqModulus]) rfl

/-- Modelled from the spec: the scalar field of the 254-bit curve has
Fr::N_BITS = 254 (fr.rs is outside src). -/
def Fr.N_BITS : Nat := 254

/-- Modelled from the ark interface the source builds on:
ark_bn254::G1Affine is at once an element of the curve group (the
accumulator arithmetic c + c and c + table entry, and the identity) and a
coordinate record with the infinity flag; the coordinate view is what the
sub-script generators read. -/
class ArkPoint (G : Type) (F : Type) extends AddCommGroup G where
  toRep : G → G1Point F

/-- dfs_with_constant_mul: the complete balanced binary decision tree
over the window bits; each leaf pushes a literal table point, and the
all-zero leaf of the zero mask is special-cased to the sentinel push. -/
def dfs_with_constant_mul (index depth mask : Nat)
    (p_mul : Nat → G1Point F) : List (Scr F) :=
  match depth with
  | 0 =>
    [Scr.opIf (G1Affine.push (p_mul (mask + 2 ^ index)))
       (if mask = 0 then G1Affine.push_zero
        else G1Affine.push (p_mul mask))]
  | d + 1 =>
    [Scr.opIf (dfs_with_constant_mul (index + 1) d (mask + 2 ^ index) p_mul)
       (dfs_with_constant_mul (index + 1) d mask p_mul)]

/-- The precomputed multiples table p_mul: entry 0 is the identity and
each later entry adds the base point to the previous one; rendered as the
indexing function of the vector (the generated script only reads indices
below 2 ^ i_step). -/
def pMulTable {G : Type} [AddCommGroup G] (p : G) : Nat → G
  | 0 => 0
  | j + 1 => pMulTable p j + p

/-- The bucket scalar of one window: the source folds the window bits
most-significant-first with mask = 2 * mask + bit. -/
def windowMask (k i depth : Nat) : Nat :=
  (List.range depth).foldl
    (fun m j =>
      2 * m + (if k.testBit (Fr.N_BITS - i - j - 1) then 1 else 0)) 0

/-- The doubling block of one window: each of the depth steps consumes
one coefficient, one step point and one trace point from the iterators,
emits a checked doubling of the current accumulator and doubles the
accumulator; a missing entry is the none case (unwrap panic). -/
def doubleSteps {G : Type} [ArkPoint G F] :
    Nat → List (F × F) → List G → List G → G → List (Scr F) → List F →
    Option (List (F × F) × List G × List G × G × List (Scr F) × List F)
  | 0, coeff, stepP, trace, c, scrs, hs =>
    some (coeff, stepP, trace, c, scrs, hs)
  | d + 1, coeff, stepP, trace, c, scrs, hs =>
    match coeff, stepP, trace with
    | _ :: coeff2, _ :: stepP2, _ :: trace2 =>
      let dbl := G1Affine.hinted_check_double (ArkPoint.toRep (F := F) c)
      doubleSteps d coeff2 stepP2 trace2 (c + c) (scrs ++ dbl.1)
        (hs ++ dbl.2)
    | _, _, _ => none

/-- The three exhaustion assertions after the loop: the result is only
returned when every iterator has been fully consumed. -/
def loopFinish {G : Type} (coeff : List (F × F)) (stepP trace : List G)
    (scrs : List (Scr F)) (hs : List F) (c : G) :
    Option (List (Scr F) × List F × G) :=
  match coeff, stepP, trace with
  | [], [], [] => some (scrs, hs, c)
  | _, _, _ => none

/-- The window loop of hinted_scalar_mul_by_constant_g1: a fuel-indexed
rendering of the source while loop (the fuel only bounds the number of
iterations and Fr.N_BITS is always sufficient, since i grows by the
window width each round).  On exit the three exhaustion assertions
require every list to be fully consumed; the none cases model the
construction-time panics. -/
def mulLoop {G : Type} [ArkPoint G F] (iStep k : Nat) (pm : Nat → G) :
    Nat → Nat → List (F × F) → List G → List G → G → List (Scr F) →
    List F → Option (List (Scr F) × List F × G)
  | 0, i, coeff, stepP, trace, c, scrs, hs =>
    if i < Fr.N_BITS then none
    else loopFinish coeff stepP trace scrs hs c
  | fuel + 1, i, coeff, stepP, trace, c, scrs, hs =>
    if i < Fr.N_BITS then
      let depth := min (Fr.N_BITS - i) iStep
      match (if 0 < i then doubleSteps depth coeff stepP trace c scrs hs
             else some (coeff, stepP, trace, c, scrs, hs)) with
      | none => none
      | some (coeff1, stepP1, trace1, c1, scrs1, hs1) =>
        let scrs2 := scrs1 ++ List.replicate depth Scr.opFromAlt
        let mask := windowMask k i depth
        if i = 0 then
          match trace1 with
          | _ :: trace2 =>
            mulLoop iStep k pm fuel (i + iStep) coeff1 stepP1 trace2
              (c1 + pm mask)
              (scrs2 ++ dfs_with_constant_mul 0 (depth - 1) 0
                (fun j => ArkPoint.toRep (F := F) (pm j)))
              hs1
          | [] => none
        else
          match coeff1, trace1 with
          | ac :: coeff2, _ :: trace2 =>
            let addp := G1Affine.hinted_check_add
              (ArkPoint.toRep (F := F) c1)
              (ArkPoint.toRep (F := F) (pm mask)) ac.1
            mulLoop iStep k pm fuel (i + iStep) coeff2 stepP1 trace2
              (c1 + pm mask)
              (scrs2 ++ dfs_with_constant_mul 0 (depth - 1) 0
                (fun j => ArkPoint.toRep (F := F) (pm j)) ++ addp.1)
              (hs1 ++ addp.2)
          | _, _ => none
    else loopFinish coeff stepP trace scrs hs c

/-- The window width of the source: let i_step = 12 (its comment notes
the options 2 to 15). -/
def i_step : Nat := 12

/-- hinted_scalar_mul_by_constant_g1 at an arbitrary window width: the
source body with i_step = w.  The result triple is the generated script
(the scalar bit-decomposition preamble followed by the per-window
fragments), the hint list, and the value written back through the mutable
base-point argument; none models a construction-time panic. -/
def hinted_scalar_mul_by_constant_g1_w {G : Type} [ArkPoint G F]
    (w k : Nat) (p : G) (coeff : List (F × F)) (step_p : List G)
    (trace : List G) : Option (List (Scr F) × List F × G) :=
  mulLoop w k (pMulTable p) Fr.N_BITS 0 coeff step_p trace 0
    [Scr.opFrBitsToAlt] []

/-- hinted_scalar_mul_by_constant_g1: the source function with its
hard-wired window width. -/
def hinted_scalar_mul_by_constant_g1 {G : Type} [ArkPoint G F] (k : Nat)
    (p : G) (coeff : List (F × F)) (step_p : List G) (trace : List G) :
    Option (List (Scr F) × List F × G) :=
  hinted_scalar_mul_by_constant_g1_w i_step k p coeff step_p trace

/-- The entry counts the window partition of the scalar bit-length
implies: the first window consumes one trace entry, and every later
window consumes depth triples for the doublings plus one coefficient and
one trace entry for the addition. -/
def reqCounts (iStep : Nat) : Nat → Nat → Nat × Nat × Nat
  | 0, _ => (0, 0, 0)
  | fuel + 1, i =>
    if i < Fr.N_BITS then
      let depth := min (Fr.N_BITS - i) iStep
      let rest := reqCounts iStep fuel (i + iStep)
      if i = 0 then (rest.1, rest.2.1, 1 + rest.2.2)
      else (depth + 1 + rest.1, depth + rest.2.1, depth + 1 + rest.2.2)
    else (0, 0, 0)

/-- The table entry at index j is the j-th multiple of the base point. -/
lemma pMulTable_eq {G : Type} [AddCommGroup G] (p : G) (j : Nat) :
    pMulTable p j = j • p := by
  induction j with
  | zero => simp [pMulTable]
  | succ j ih => simp [pMulTable, ih, succ_nsmul]

/-- When all three lists carry at least depth entries, the doubling block
drops depth entries from each and multiplies the accumulator by
2 ^ depth. -/
lemma doubleSteps_some {G : Type} [ArkPoint G F] (d : Nat) :
    ∀ (coeff : List (F × F)) (stepP trace : List G) (c : G) scrs hs,
      d ≤ coeff.length → d ≤ stepP.length → d ≤ trace.length →
      ∃ scrs2 hs2,
        doubleSteps d coeff stepP trace c scrs hs =
          some (coeff.drop d, stepP.drop d, trace.drop d, (2 ^ d) • c,
            scrs2, hs2) := by
  induction d with
  | zero =>
    intro coeff stepP trace c scrs hs _ _ _
    exact ⟨scrs, hs, by simp [doubleSteps]⟩
  | succ d ih =>
    intro coeff stepP trace c scrs hs hc hsp htr
    match coeff, stepP, trace with
    | dc :: coeff2, sp :: stepP2, tp :: trace2 =>
      simp only [List.length_cons, Nat.succ_le_succ_iff] at hc hsp htr
      obtain ⟨scrs2, hs2, heq⟩ := ih coeff2 stepP2 trace2 (c + c) _ _ hc hsp htr
      refine ⟨scrs2, hs2, ?_⟩
      rw [doubleSteps]
      rw [heq]
      have hc2 : (2 ^ d) • (c + c) = (2 ^ (d + 1)) • c := by
        rw [← two_nsmul, ← mul_nsmul, pow_succ']
      simp [hc2]

/-- When some list carries fewer than depth entries the doubling block
fails. -/
lemma doubleSteps_none {G : Type} [ArkPoint G F] (d : Nat) :
    ∀ (coeff : List (F × F)) (stepP trace : List G) (c : G) scrs hs,
      (coeff.length < d ∨ stepP.length < d ∨ trace.length < d) →
      doubleSteps d coeff stepP trace c scrs hs = none := by
  induction d with
  | zero =>
    intro coeff stepP trace c scrs hs h
    omega
  | succ d ih =>
    intro coeff stepP trace c scrs hs h
    cases coeff with
    | nil => simp [doubleSteps]
    | cons dc coeff2 =>
      cases stepP with
      | nil => simp [doubleSteps]
      | cons sp stepP2 =>
        cases trace with
        | nil => simp [doubleSteps]
        | cons tp trace2 =>
          rw [doubleSteps]
          apply ih
          simp only [List.length_cons] at h
          omega

/-- The window mask is the depth-bit slice of the scalar ending just
above bit Fr.N_BITS - i - depth. -/
lemma windowMask_eq (k i : Nat) :
    ∀ d, d ≤ Fr.N_BITS - i →
      windowMask k i d = (k / 2 ^ (Fr.N_BITS - i - d)) % 2 ^ d := by
  intro d
  induction d with
  | zero => intro _; simp [windowMask, Nat.mod_one]
  | succ d ih =>
    intro hd
    have hd2 : d ≤ Fr.N_BITS - i := by omega
    have hstep : windowMask k i (d + 1) =
        2 * windowMask k i d +
          (if k.testBit (Fr.N_BITS - i - d - 1) then 1 else 0) := by
      rw [windowMask, windowMask, List.range_succ, List.foldl_append]
      rfl
    rw [hstep, ih hd2]
    set a := k / 2 ^ (Fr.N_BITS - i - (d + 1)) with ha
    have hexp : Fr.N_BITS - i - d = (Fr.N_BITS - i - (d + 1)) + 1 := by
      omega
    have hdiv : k / 2 ^ (Fr.N_BITS - i - d) = a / 2 := by
      rw [hexp, pow_succ, ← Nat.div_div_eq_div_mul, ha]
    have hbit : (if k.testBit (Fr.N_BITS - i - d - 1) then 1 else 0) =
        a % 2 := by
      have hpos : Fr.N_BITS - i - d - 1 = Fr.N_BITS - i - (d + 1) := by
        omega
      rw [hpos, Nat.testBit_to_div_mod, ← ha]
      rcases Nat.mod_two_eq_zero_or_one a with h | h <;> simp [h]
    rw [hdiv, hbit]
    have ha2 : a = 2 ^ (d + 1) * (a / 2 / 2 ^ d) + (2 * (a / 2 % 2 ^ d) + a % 2) := by
      have h1 : a = 2 * (a / 2) + a % 2 := (Nat.div_add_mod a 2).symm.trans (by ring)
      have h2 : a / 2 = 2 ^ d * (a / 2 / 2 ^ d) + a / 2 % 2 ^ d :=
        (Nat.div_add_mod (a / 2) (2 ^ d)).symm
      calc a = 2 * (a / 2) + a % 2 := h1
        _ = 2 * (2 ^ d * (a / 2 / 2 ^ d) + a / 2 % 2 ^ d) + a % 2 := by
            rw [← h2]
        _ = 2 ^ (d + 1) * (a / 2 / 2 ^ d) + (2 * (a / 2 % 2 ^ d) + a % 2) := by
            ring
    have hlt : 2 * (a / 2 % 2 ^ d) + a % 2 < 2 ^ (d + 1) := by
      have h3 : a / 2 % 2 ^ d < 2 ^ d := Nat.mod_lt _ (Nat.pos_pow_of_pos d (by omega))
      have h4 : a % 2 < 2 := Nat.mod_lt _ (by omega)
      have : 2 ^ (d + 1) = 2 * 2 ^ d := by ring
      omega
    have harith : a % 2 ^ (d + 1) = 2 * (a / 2 % 2 ^ d) + a % 2 := by
      conv_lhs => rw [ha2]
      rw [Nat.mul_add_mod, Nat.mod_eq_of_lt hlt]
    rw [harith]

/-- Splitting off a window: the high bits already processed, shifted up
by the window width, plus the window slice give the high bits after the
window. -/
lemma div_mod_window (k nb i d : Nat) (hd : d ≤ nb - i) :
    2 ^ d * (k / 2 ^ (nb - i)) + (k / 2 ^ (nb - i - d)) % 2 ^ d =
      k / 2 ^ (nb - i - d) := by
  obtain ⟨m, hm⟩ : ∃ m, nb - i - d = m := ⟨_, rfl⟩
  have hni : nb - i = m + d := by omega
  rw [hm, hni, pow_add, ← Nat.div_div_eq_div_mul]
  exact Nat.div_add_mod _ _

/-- The exhaustion check succeeds exactly on three empty lists. -/
lemma loopFinish_isSome_iff {G : Type} (coeff : List (F × F))
    (stepP trace : List G) (scrs : List (Scr F)) (hs : List F) (c : G) :
    (loopFinish coeff stepP trace scrs hs c).isSome ↔
      coeff.length = 0 ∧ stepP.length = 0 ∧ trace.length = 0 := by
  cases coeff <;> cases stepP <;> cases trace <;> simp [loopFinish]

/-- The window loop succeeds exactly when the three lists carry the entry
counts the window partition implies from the current position. -/
lemma mulLoop_isSome_iff {G : Type} [ArkPoint G F] (iStep : Nat) :
    ∀ (fuel i k : Nat) (pm : Nat → G) (coeff : List (F × F))
      (stepP trace : List G) (c : G) (scrs : List (Scr F)) (hs : List F),
      Fr.N_BITS ≤ i + fuel * iStep →
      ((mulLoop iStep k pm fuel i coeff stepP trace c scrs hs).isSome ↔
        (coeff.length = (reqCounts iStep fuel i).1 ∧
         stepP.length = (reqCounts iStep fuel i).2.1 ∧
         trace.length = (reqCounts iStep fuel i).2.2)) := by
  intro fuel
  induction fuel with
  | zero =>
    intro i k pm coeff stepP trace c scrs hs hfuel
    simp only [Nat.zero_mul, Nat.add_zero] at hfuel
    rw [mulLoop, reqCounts, if_neg (by omega), loopFinish_isSome_iff]
  | succ fuel ih =>
    intro i k pm coeff stepP trace c scrs hs hfuel
    have hfuel2 : Fr.N_BITS ≤ (i + iStep) + fuel * iStep := by
      rw [Nat.succ_mul] at hfuel
      omega
    rw [mulLoop, reqCounts]
    by_cases hi : i < Fr.N_BITS
    · rw [if_pos hi, if_pos hi]
      dsimp only
      by_cases hi0 : i = 0
      · subst hi0
        rw [if_neg (lt_irrefl 0)]
        dsimp only
        simp only [eq_self_iff_true, if_true]
        cases trace with
        | nil =>
          simp only [Option.isSome_none, Bool.false_eq_true, false_iff,
            List.length_nil]
          rintro ⟨-, -, h3⟩
          omega
        | cons tp trace2 =>
          dsimp only
          rw [ih (0 + iStep) k pm coeff stepP trace2 _ _ _ hfuel2]
          simp only [List.length_cons]
          constructor
          · rintro ⟨h1, h2, h3⟩
            exact ⟨h1, h2, by omega⟩
          · rintro ⟨h1, h2, h3⟩
            exact ⟨h1, h2, by omega⟩
      · have hipos : 0 < i := Nat.pos_of_ne_zero hi0
        rw [if_pos hipos]
        simp only [if_neg hi0]
        by_cases hlen : min (Fr.N_BITS - i) iStep ≤ coeff.length ∧
            min (Fr.N_BITS - i) iStep ≤ stepP.length ∧
            min (Fr.N_BITS - i) iStep ≤ trace.length
        · obtain ⟨hlc, hls, hlt⟩ := hlen
          obtain ⟨scrs2, hs2, heq⟩ :=
            doubleSteps_some (min (Fr.N_BITS - i) iStep) coeff stepP trace
              c scrs hs hlc hls hlt
          rw [heq]
          cases hdc : coeff.drop (min (Fr.N_BITS - i) iStep) with
          | nil =>
            have hlc2 := congrArg List.length hdc
            simp only [List.length_drop, List.length_nil] at hlc2
            simp only [hdc, Option.isSome_none, Bool.false_eq_true,
              false_iff]
            rintro ⟨h1, -, -⟩
            omega
          | cons ac coeff2 =>
            cases hdt : trace.drop (min (Fr.N_BITS - i) iStep) with
            | nil =>
              have hlt2 := congrArg List.length hdt
              simp only [List.length_drop, List.length_nil] at hlt2
              simp only [hdc, hdt, Option.isSome_none, Bool.false_eq_true,
                false_iff]
              rintro ⟨-, -, h3⟩
              omega
            | cons tp trace2 =>
              have hlc2 := congrArg List.length hdc
              simp only [List.length_drop, List.length_cons] at hlc2
              have hlt2 := congrArg List.length hdt
              simp only [List.length_drop, List.length_cons] at hlt2
              simp only [hdc, hdt]
              rw [ih (i + iStep) k pm coeff2
                (stepP.drop (min (Fr.N_BITS - i) iStep)) trace2 _ _ _ hfuel2]
              simp only [List.length_drop]
              constructor
              · rintro ⟨h1, h2, h3⟩
                refine ⟨by omega, by omega, by omega⟩
              · rintro ⟨h1, h2, h3⟩
                refine ⟨by omega, by omega, by omega⟩
        · push_neg at hlen
          rw [doubleSteps_none (min (Fr.N_BITS - i) iStep) coeff stepP trace
            c scrs hs (by omega)]
          simp only [Option.isSome_none, Bool.false_eq_true, false_iff]
          rintro ⟨h1, h2, h3⟩
          omega
    · rw [if_neg hi, if_neg hi, loopFinish_isSome_iff]

/-- A successful exhaustion check returns the accumulator unchanged. -/
lemma loopFinish_eq_some {G : Type} {coeff : List (F × F)}
    {stepP trace : List G} {scrs : List (Scr F)} {hs : List F} {c : G}
    {res : List (Scr F) × List F × G} :
    loopFinish coeff stepP trace scrs hs c = some res → res.2.2 = c := by
  cases coeff <;> cases stepP <;> cases trace <;>
    simp [loopFinish] <;> rintro rfl <;> rfl

/-- The invariant of the window loop: entering window position i with the
accumulator holding the processed high bits of the scalar times the base
point, a successful run returns the full scalar multiple through the
mutable argument. -/
lemma mulLoop_pOut {G : Type} [ArkPoint G F] (iStep : Nat) (P : G)
    (k : Nat) (hk : k < 2 ^ Fr.N_BITS) :
    ∀ (fuel i : Nat) (coeff : List (F × F)) (stepP trace : List G)
      (scrs : List (Scr F)) (hs : List F)
      (res : List (Scr F) × List F × G),
      mulLoop iStep k (pMulTable P) fuel i coeff stepP trace
        ((k / 2 ^ (Fr.N_BITS - i)) • P) scrs hs = some res →
      res.2.2 = k • P := by
  intro fuel
  induction fuel with
  | zero =>
    intro i coeff stepP trace scrs hs res heq
    rw [mulLoop] at heq
    by_cases hi : i < Fr.N_BITS
    · rw [if_pos hi] at heq
      cases heq
    · rw [if_neg hi] at heq
      have hsub : Fr.N_BITS - i = 0 := by omega
      have := loopFinish_eq_some heq
      rw [this, hsub, pow_zero, Nat.div_one]
  | succ fuel ih =>
    intro i coeff stepP trace scrs hs res heq
    have hdle : min (Fr.N_BITS - i) iStep ≤ Fr.N_BITS - i :=
      min_le_left _ _
    have hexp : Fr.N_BITS - (i + iStep) =
        Fr.N_BITS - i - min (Fr.N_BITS - i) iStep := by
      rcases le_total (Fr.N_BITS - i) iStep with h | h
      · rw [min_eq_left h]
        omega
      · rw [min_eq_right h]
        omega
    rw [mulLoop] at heq
    by_cases hi : i < Fr.N_BITS
    · rw [if_pos hi] at heq
      dsimp only at heq
      by_cases hi0 : i = 0
      · subst hi0
        rw [if_neg (lt_irrefl 0)] at heq
        dsimp only at heq
        simp only [eq_self_iff_true, if_true] at heq
        cases trace with
        | nil => cases heq
        | cons tp trace2 =>
          dsimp only at heq
          have hacc : (k / 2 ^ (Fr.N_BITS - 0)) • P +
              pMulTable P (windowMask k 0 (min (Fr.N_BITS - 0) iStep)) =
              (k / 2 ^ (Fr.N_BITS - (0 + iStep))) • P := by
            rw [pMulTable_eq, windowMask_eq k 0 _ hdle, ← add_nsmul, hexp]
            congr 1
            have h0 : k / 2 ^ (Fr.N_BITS - 0) = 0 := by
              rw [Nat.sub_zero]
              exact Nat.div_eq_of_lt hk
            have hpow : 2 ^ (min (Fr.N_BITS - 0) iStep) *
                2 ^ (Fr.N_BITS - 0 - min (Fr.N_BITS - 0) iStep) =
                2 ^ Fr.N_BITS := by
              rw [← pow_add]
              congr 1
              omega
            have hlt : k / 2 ^ (Fr.N_BITS - 0 - min (Fr.N_BITS - 0) iStep) <
                2 ^ (min (Fr.N_BITS - 0) iStep) := by
              rw [Nat.div_lt_iff_lt_mul
                (Nat.pos_pow_of_pos _ (by omega)), hpow]
              exact hk
            rw [h0, Nat.zero_add, Nat.mod_eq_of_lt hlt]
          rw [hacc] at heq
          exact ih (0 + iStep) coeff stepP trace2 _ _ res heq
      · have hipos : 0 < i := Nat.pos_of_ne_zero hi0
        rw [if_pos hipos] at heq
        by_cases hlen : min (Fr.N_BITS - i) iStep ≤ coeff.length ∧
            min (Fr.N_BITS - i) iStep ≤ stepP.length ∧
            min (Fr.N_BITS - i) iStep ≤ trace.length
        · obtain ⟨hlc, hls, hlt⟩ := hlen
          obtain ⟨scrs2, hs2, heq2⟩ :=
            doubleSteps_some (min (Fr.N_BITS - i) iStep) coeff stepP trace
              ((k / 2 ^ (Fr.N_BITS - i)) • P) scrs hs hlc hls hlt
          rw [heq2] at heq
          dsimp only at heq
          rw [if_neg hi0] at heq
          cases hdc : coeff.drop (min (Fr.N_BITS - i) iStep) with
          | nil =>
            rw [hdc] at heq
            cases heq
          | cons ac coeff2 =>
            cases hdt : trace.drop (min (Fr.N_BITS - i) iStep) with
            | nil =>
              rw [hdc, hdt] at heq
              cases heq
            | cons tp trace2 =>
              rw [hdc, hdt] at heq
              dsimp only at heq
              have hacc : (2 ^ (min (Fr.N_BITS - i) iStep)) •
                  ((k / 2 ^ (Fr.N_BITS - i)) • P) +
                  pMulTable P
                    (windowMask k i (min (Fr.N_BITS - i) iStep)) =
                  (k / 2 ^ (Fr.N_BITS - (i + iStep))) • P := by
                rw [pMulTable_eq, windowMask_eq k i _ hdle, ← mul_nsmul,
                  ← add_nsmul, hexp]
                congr 1
                rw [mul_comm (k / 2 ^ (Fr.N_BITS - i))
                  (2 ^ (min (Fr.N_BITS - i) iStep))]
                exact div_mod_window k Fr.N_BITS i _ hdle
              rw [hacc] at heq
              exact ih (i + iStep) coeff2 _ trace2 _ _ res heq
        · push_neg at hlen
          rw [doubleSteps_none (min (Fr.N_BITS - i) iStep) coeff stepP trace
            _ scrs hs (by omega)] at heq
          cases heq
    · rw [if_neg hi] at heq
      have hsub : Fr.N_BITS - i = 0 := by omega
      have := loopFinish_eq_some heq
      rw [this, hsub, pow_zero, Nat.div_one]

/-- C4: construction of hinted_scalar_mul_by_constant_g1 aborts (none,
the model of the construction-time panic from a missing iterator entry or
a failed exhaustion assertion after the loop) exactly when the supplied
coefficient, step-point and trace lists do not each carry the entry count
implied by partitioning the 254-bit scalar length into windows of the
hard-wired width. -/
theorem hinted_scalar_mul_aborts_iff_counts {G : Type} [ArkPoint G F]
    (k : Nat) (p : G) (coeff : List (F × F)) (step_p : List G)
    (trace : List G) :
    hinted_scalar_mul_by_constant_g1 k p coeff step_p trace = none ↔
      ¬(coeff.length = (reqCounts i_step Fr.N_BITS 0).1 ∧
        step_p.length = (reqCounts i_step Fr.N_BITS 0).2.1 ∧
        trace.length = (reqCounts i_step Fr.N_BITS 0).2.2) := by
  rw [hinted_scalar_mul_by_constant_g1, hinted_scalar_mul_by_constant_g1_w,
    ← Option.not_isSome_iff_eq_none]
  exact not_congr (mulLoop_isSome_iff i_step Fr.N_BITS 0 k (pMulTable p)
    coeff step_p trace 0 [Scr.opFrBitsToAlt] []
    (by norm_num [Fr.N_BITS, i_step]))

/-- C5: the window width constant of the source is 12, and the windowed
construction is well defined at every width from 2 to 15: at each such
width the compiler succeeds on the implied entry counts, so it can be
instantiated in particular at widths 2, 12 and 15. -/
theorem window_width_default_and_range {G : Type} [ArkPoint G F] :
    i_step = 12 ∧
    ∀ w : Nat, 2 ≤ w → w ≤ 15 →
      ∀ (k : Nat) (p : G) (coeff : List (F × F)) (step_p trace : List G),
        coeff.length = (reqCounts w Fr.N_BITS 0).1 →
        step_p.length = (reqCounts w Fr.N_BITS 0).2.1 →
        trace.length = (reqCounts w Fr.N_BITS 0).2.2 →
        (hinted_scalar_mul_by_constant_g1_w w k p coeff step_p
          trace).isSome := by
  refine ⟨rfl, ?_⟩
  intro w hw2 hw15 k p coeff step_p trace hc hs ht
  have hfuel : Fr.N_BITS ≤ 0 + Fr.N_BITS * w := by
    have := Nat.le_mul_of_pos_right Fr.N_BITS (show 0 < w by omega)
    omega
  rw [hinted_scalar_mul_by_constant_g1_w]
  exact (mulLoop_isSome_iff w Fr.N_BITS 0 k (pMulTable p) coeff step_p
    trace 0 [Scr.opFrBitsToAlt] [] hfuel).mpr ⟨hc, hs, ht⟩

/-- C8: a call of hinted_scalar_mul_by_constant_g1 with the implied entry
counts succeeds and writes back through the mutable base-point argument
exactly the multiplication result: the returned point value equals
scalar times the original base point. -/
theorem hinted_scalar_mul_overwrites_p {G : Type} [ArkPoint G F]
    (k : Nat) (hk : k < 2 ^ Fr.N_BITS) (p : G) (coeff : List (F × F))
    (step_p trace : List G)
    (hc : coeff.length = (reqCounts i_step Fr.N_BITS 0).1)
    (hs : step_p.length = (reqCounts i_step Fr.N_BITS 0).2.1)
    (ht : trace.length = (reqCounts i_step Fr.N_BITS 0).2.2) :
    ∃ scr hints,
      hinted_scalar_mul_by_constant_g1 k p coeff step_p trace =
        some (scr, hints, k • p) := by
  have hsome :
      (hinted_scalar_mul_by_constant_g1 k p coeff step_p trace).isSome := by
    rw [hinted_scalar_mul_by_constant_g1, hinted_scalar_mul_by_constant_g1_w]
    exact (mulLoop_isSome_iff i_step Fr.N_BITS 0 k (pMulTable p) coeff
      step_p trace 0 [Scr.opFrBitsToAlt] []
      (by norm_num [Fr.N_BITS, i_step])).mpr ⟨hc, hs, ht⟩
  obtain ⟨res, hres⟩ := Option.isSome_iff_exists.mp hsome
  have hzero : (0 : G) = (k / 2 ^ (Fr.N_BITS - 0)) • p := by
    rw [Nat.sub_zero, Nat.div_eq_of_lt hk, zero_nsmul]
  have hres2 := hres
  rw [hinted_scalar_mul_by_constant_g1, hinted_scalar_mul_by_constant_g1_w,
    hzero] at hres2
  have hout := mulLoop_pOut i_step p k hk Fr.N_BITS 0 coeff step_p trace
    [Scr.opFrBitsToAlt] [] res hres2
  obtain ⟨scr2, hints2, pt⟩ := res
  dsimp only at hout
  subst hout
  exact ⟨scr2, hints2, hres⟩

/-- A concrete carrier for the scalar-multiplication witnesses: the
additive group of the integers with trivial coordinates. -/
instance : ArkPoint ℤ (ZMod 11) where
  toRep := fun _ => ⟨0, 0, false⟩

/-- Witness for C5 at the widths 2, 12 and 15 with correctly sized
lists. -/
theorem window_width_default_and_range_witness :
    i_step = 12 ∧
    (hinted_scalar_mul_by_constant_g1_w 2 5 (1 : ℤ)
      (List.replicate (reqCounts 2 Fr.N_BITS 0).1
        ((0 : ZMod 11), (0 : ZMod 11)))
      (List.replicate (reqCounts 2 Fr.N_BITS 0).2.1 (1 : ℤ))
      (List.replicate (reqCounts 2 Fr.N_BITS 0).2.2 (1 : ℤ))).isSome ∧
    (hinted_scalar_mul_by_constant_g1_w 12 5 (1 : ℤ)
      (List.replicate (reqCounts 12 Fr.N_BITS 0).1
        ((0 : ZMod 11), (0 : ZMod 11)))
      (List.replicate (reqCounts 12 Fr.N_BITS 0).2.1 (1 : ℤ))
      (List.replicate (reqCounts 12 Fr.N_BITS 0).2.2 (1 : ℤ))).isSome ∧
    (hinted_scalar_mul_by_constant_g1_w 15 5 (1 : ℤ)
      (List.replicate (reqCounts 15 Fr.N_BITS 0).1
        ((0 : ZMod 11), (0 : ZMod 11)))
      (List.replicate (reqCounts 15 Fr.N_BITS 0).2.1 (1 : ℤ))
      (List.replicate (reqCounts 15 Fr.N_BITS 0).2.2 (1 : ℤ))).isSome :=
  ⟨(window_width_default_and_range (G := ℤ) (F := ZMod 11)).1,
   (window_width_default_and_range).2 2 (by norm_num) (by norm_num) 5 1
     _ _ _ (by simp) (by simp) (by simp),
   (window_width_default_and_range).2 12 (by norm_num) (by norm_num) 5 1
     _ _ _ (by simp) (by simp) (by simp),
   (window_width_default_and_range).2 15 (by norm_num) (by norm_num) 5 1
     _ _ _ (by simp) (by simp) (by simp)⟩

/-- Witness for C8 at scalar 5 and base point 1 in the integers. -/
theorem hinted_scalar_mul_overwrites_p_witness :
    ∃ scr hints,
      hinted_scalar_mul_by_constant_g1 5 (1 : ℤ)
        (List.replicate (reqCounts i_step Fr.N_BITS 0).1
          ((0 : ZMod 11), (0 : ZMod 11)))
        (List.replicate (reqCounts i_step Fr.N_BITS 0).2.1 (1 : ℤ))
        (List.replicate (reqCounts i_step Fr.N_BITS 0).2.2 (1 : ℤ)) =
        some (scr, hints, (5 : Nat) • (1 : ℤ)) :=
  hinted_scalar_mul_overwrites_p 5 (by norm_num [Fr.N_BITS]) 1 _ _ _
    (by simp) (by simp) (by simp)

end BitVMG1
